import Mathlib

/-
Verification of the hardhat-tenderly plugin's request-assembly pipeline
(`Tenderly.verify`, `Tenderly.push`, `Tenderly.filterContracts`,
`Tenderly.getContracts`, `Tenderly.getContractData`) against its
natural-language specification.

The TypeScript source is embedded shallowly: JavaScript objects keyed by
strings become association lists preserving insertion order, JS `x || y`
on `string | undefined` becomes an explicit truthiness test, thrown
exceptions become `Except`, and `console.log` output is collected into an
explicit log list.  Helpers that live outside the provided sources
(`resolveDependencies`, `NetworkMap`, `PluginName`, `newCompilerConfig`)
are modelled from the specification; each such definition says so in its
doc comment.
-/

namespace HardhatTenderly

/-- A contract requested by the caller: declared name, deployed address,
and optionally the network it was deployed to (`ContractByName`). -/
structure ContractByName where
  name : String
  address : String
  network : Option String
deriving DecidableEq

/-- One node of the resolved dependency graph returned by the host build
tool: its source name (path), raw file content, and the source names
it imports. -/
structure ResolvedFile where
  sourceName : String
  rawContent : String
  imports : List String
deriving DecidableEq

/-- The resolved source graph (`data._resolvedFiles` plus the per-file
dependency edges), supplied by the host compiler and read-only here. -/
structure SourceGraph where
  resolvedFiles : List ResolvedFile
deriving DecidableEq

/-- First resolved file with the given source name, together with proofs
of membership and of the name match (JS `Array.prototype.find`
semantics: first match wins).  The bundled proofs feed the termination
argument of the dependency resolver. -/
def findFileMem : (l : List ResolvedFile) → (p : String) →
    Option {f : ResolvedFile // f ∈ l ∧ f.sourceName = p}
  | [], _ => none
  | rf :: rest, p =>
    if h : rf.sourceName = p then
      some ⟨rf, List.mem_cons_self rf rest, h⟩
    else
      (findFileMem rest p).map (fun x => ⟨x.1, List.mem_cons_of_mem rf x.2.1, x.2.2⟩)

/-- First resolved file of the graph with the given source name. -/
def findFile (g : SourceGraph) (p : String) : Option ResolvedFile :=
  (findFileMem g.resolvedFiles p).map (fun x => x.1)

/-- JS object assignment `m[k] = v` on a string-keyed object: replaces the
value in place when the key exists, otherwise appends the key at the end
(JS insertion-order semantics). -/
def assocSet : List (String × String) → String → String → List (String × String)
  | [], k, v => [(k, v)]
  | kv :: rest, k, v =>
    if kv.1 = k then (k, v) :: rest else kv :: assocSet rest k v

/-- JS object read `m[k]` on a string-keyed object. -/
def lookupKey : List (String × String) → String → Option String
  | [], _ => none
  | kv :: rest, k => if kv.1 = k then some kv.2 else lookupKey rest k

/-- The metadata accumulator: compiler version plus a mapping from source
path to raw content (`Metadata`; the `{ content: … }` wrapper of the
source is flattened to the content string). -/
structure Metadata where
  compilerVersion : String
  sources : List (String × String)
deriving DecidableEq

/-- The `compiler` field of a `TenderlyContract`. -/
structure TenderlyCompiler where
  name : String
  version : String
deriving DecidableEq

/-- One assembled upload unit (`TenderlyContract`): contract name, source
text, source path, network-to-address mapping, compiler id. -/
structure TenderlyContract where
  contractName : String
  source : String
  sourcePath : String
  networks : List (String × String)
  compiler : TenderlyCompiler
deriving DecidableEq

/-- Modelled from the spec: `newCompilerConfig` lives in `src/util.ts`,
which is not among the provided sources.  The spec describes it as a
compiler configuration object (compiler version, optimizer settings)
sourced from host configuration. -/
structure TenderlyCompilerConfig where
  compiler_version : String
  optimizations_used : Bool
  optimizations_count : Nat
deriving DecidableEq

/-- The top-level request envelope (`TenderlyContractUploadRequest`). -/
structure TenderlyContractUploadRequest where
  contracts : List TenderlyContract
  config : TenderlyCompilerConfig
deriving DecidableEq

/-- The slice of the Hardhat runtime environment the embedded operations
read: the CLI `--network` argument, the first configured solc version and
optimizer settings, the `tenderly` project/username configuration, and
the resolved source graph returned by the three `compile:solidity:*`
tasks.  The source never writes to any of these. -/
structure Env where
  cliNetwork : Option String
  compilerVersion : String
  optimizationsUsed : Bool
  optimizationsCount : Nat
  tenderlyProject : Option String
  tenderlyUsername : Option String
  graph : SourceGraph
deriving DecidableEq

/-- Modelled from the spec: the constant `PluginName` is exported from
`src/index.ts`, which is not among the provided sources; its exact text
is immaterial to every claim. -/
def PluginName : String := "hardhat-tenderly"

/-- Modelled from the spec: the fixed table `NetworkMap` is exported from
`src/index.ts`, which is not among the provided sources.  The spec
describes it as a fixed mapping from lowercase human network names
(e.g. "mainnet", "ropsten") to the remote service's identifiers, with
absent names unmapped; representative entries are used and no claim
depends on the identifier values. -/
def NetworkMap : String → Option String
  | "kovan" => some "kovan"
  | "goerli" => some "goerli"
  | "mainnet" => some "mainnet"
  | "rinkeby" => some "rinkeby"
  | "ropsten" => some "ropsten"
  | _ => none

/-- Character-level embedding of JS `String.prototype.split` with a
single-character separator (written over `List Char` so that it reduces
structurally). -/
def splitChar (c : Char) : List Char → List (List Char)
  | [] => [[]]
  | x :: xs =>
    if x = c then [] :: splitChar c xs
    else
      match splitChar c xs with
      | [] => [[x]]
      | y :: ys => (x :: y) :: ys

/-- `sourcePath.split("/").slice(-1)[0].split(".")[0]`: the contract's
short name derived from its source path (last path segment, first
dot-separated component). -/
def shortName (p : String) : String :=
  String.mk ((splitChar '.' ((splitChar '/' p.toList).getLastD [])).headD [])

/-- Embedding of JS `String.prototype.toLowerCase` (ASCII; written over
`List Char` so that it reduces structurally). -/
def lowerString (s : String) : String :=
  String.mk (s.toList.map Char.toLower)

/-- Modelled from the spec: `newCompilerConfig(config)` lives in
`src/util.ts`, absent from the provided sources; per the spec it copies
the host's compiler version and optimizer settings into the request's
config object. -/
def newCompilerConfig (env : Env) : TenderlyCompilerConfig :=
  { compiler_version := env.compilerVersion
    optimizations_used := env.optimizationsUsed
    optimizations_count := env.optimizationsCount }

/-- Result of a dependency-resolution run: the updated metadata
accumulator, the updated visited-set, and (as a ghost output for
specification purposes only, unread by any caller) the list of source
paths whose raw content the run recorded, in order. -/
structure ResolveResult where
  md : Metadata
  vis : List String
  trace : List String
deriving DecidableEq

/-- Modelled from the spec: `resolveDependencies(data, sourcePath,
metadata, visited)` lives in `src/util.ts`, absent from the provided
sources.  Per the spec it records the raw content of the starting file
in the accumulator and recursively does the same for every file
it imports, skipping any path already present in the visited-set, and
fails soft on paths absent from the graph.  The recursion is phrased
with an explicit worklist (`todo`), which performs the same
depth-first visits; termination is by the lexicographic measure
(number of graph paths not yet visited, worklist length). -/
def resolveDeps (g : SourceGraph) (todo : List String) (md : Metadata)
    (vis : List String) : ResolveResult :=
  match todo with
  | [] => ⟨md, vis, []⟩
  | p :: rest =>
    if hv : p ∈ vis then
      resolveDeps g rest md vis
    else
      match findFileMem g.resolvedFiles p with
      | none => resolveDeps g rest md vis
      | some fm =>
        let r := resolveDeps g (fm.1.imports ++ rest)
          ⟨md.compilerVersion, assocSet md.sources p fm.1.rawContent⟩ (p :: vis)
        ⟨r.md, r.vis, p :: r.trace⟩
termination_by
  ((((g.resolvedFiles.map (fun rf => rf.sourceName)).toFinset \ vis.toFinset).card,
    todo.length))
decreasing_by
· apply Prod.Lex.right
  simp [List.length_cons]
· apply Prod.Lex.right
  simp [List.length_cons]
· apply Prod.Lex.left
  have hp : p ∈ (g.resolvedFiles.map (fun rf => rf.sourceName)).toFinset \ vis.toFinset := by
    rw [Finset.mem_sdiff]
    constructor
    · rw [List.mem_toFinset, List.mem_map]
      exact ⟨fm.1, fm.2.1, fm.2.2⟩
    · rw [List.mem_toFinset]
      exact hv
  rw [List.toFinset_cons, Finset.sdiff_insert]
  exact Finset.card_erase_lt_of_mem hp

/-- Source lines 214-218 (the body run for each requested contract whose
name matches the file's short name): record the file's raw content under
its source path, then resolve its full import closure with a fresh
visited-set. -/
def recordAndResolve (g : SourceGraph) (rf : ResolvedFile) (md : Metadata) : Metadata :=
  (resolveDeps g [rf.sourceName]
    ⟨md.compilerVersion, assocSet md.sources rf.sourceName rf.rawContent⟩
    []).md

/-- One iteration of the `data._resolvedFiles.forEach` of
`Tenderly.getContracts` (source lines 202-220): the inner
`for (contract of flatContracts)` loop, which skips contracts whose name
differs from the file's short name. -/
def metadataStep (g : SourceGraph) (flat : List ContractByName) (md : Metadata)
    (rf : ResolvedFile) : Metadata :=
  flat.foldl
    (fun md c => if c.name = shortName rf.sourceName then recordAndResolve g rf md else md)
    md

/-- The metadata-building phase of `Tenderly.getContracts` (source lines
195-220): fold `metadataStep` over `data._resolvedFiles`, starting from
the compiler version and an empty sources object. -/
def buildMetadata (env : Env) (flat : List ContractByName) : Metadata :=
  env.graph.resolvedFiles.foldl (metadataStep env.graph flat) ⟨env.compilerVersion, []⟩

/-- `Tenderly.getContracts` (source lines 181-240): build the metadata
accumulator, then emit one `TenderlyContract` per entry of
`metadata.sources` (JS `Object.entries` iterates in insertion order),
each with empty `networks`. -/
def getContracts (env : Env) (flat : List ContractByName) : List TenderlyContract :=
  (buildMetadata env flat).sources.map
    (fun kv =>
      { contractName := shortName kv.1
        source := kv.2
        sourcePath := kv.1
        networks := []
        compiler := { name := "solc", version := env.compilerVersion } })

/-- `Tenderly.getContractData` (source lines 242-251): wrap the contract
list with the compiler configuration. -/
def getContractData (env : Env) (flat : List ContractByName) :
    TenderlyContractUploadRequest :=
  { contracts := getContracts env flat
    config := newCompilerConfig env }

/-- JS `a || b` for `a b : string | undefined`: `b` when `a` is
`undefined` or the empty string (the only falsy strings), else `a`. -/
def jsOr (a b : Option String) : Option String :=
  match a with
  | none => b
  | some s => if s = "" then b else some s

/-- The per-contract network resolution of `Tenderly.filterContracts`
(source lines 154-157):
`env.hardhatArguments.network !== "hardhat" ? env.hardhatArguments.network || contract.network : contract.network`. -/
def resolveNetwork (cli declared : Option String) : Option String :=
  if cli ≠ some "hardhat" then jsOr cli declared else declared

/-- The computed object key `NetworkMap[network.toLowerCase()]` of source
line 172: a JS object lookup that misses yields `undefined`, and using
`undefined` as a computed property name coerces it to the string
"undefined". -/
def networkKey (network : String) : String :=
  (NetworkMap (lowerString network)).getD "undefined"

/-- Source lines 165-175: find the first request entry whose
`contractName` equals the requested name (`findIndex`) and replace its
whole `networks` object with the singleton `{ [key]: { address } }`;
when no entry matches (`index === -1`), leave the list unchanged. -/
def setNetworksAtFirst : List TenderlyContract → String → String × String →
    List TenderlyContract
  | [], _, _ => []
  | e :: rest, n, kv =>
    if e.contractName = n then { e with networks := [kv] } :: rest
    else e :: setNetworksAtFirst rest n kv

/-- The `for (contract of flatContracts)` loop of
`Tenderly.filterContracts` (source lines 153-176): resolve each
contract's network, returning `none` (the early `return null`) at the
first contract with no resolvable network, otherwise attach the
network/address pair to the first matching request entry. -/
def filterContractsLoop (cli : Option String) :
    List ContractByName → List TenderlyContract → Option (List TenderlyContract)
  | [], cs => some cs
  | c :: rest, cs =>
    match resolveNetwork cli c.network with
    | none => none
    | some net =>
      filterContractsLoop cli rest (setNetworksAtFirst cs c.name (networkKey net, c.address))

/-- The log line of source lines 159-162. -/
def networkErrMsg : String :=
  "Error in " ++ PluginName ++
    ": Please provide a network via the hardhat --network argument or directly in the contract"

/-- The log line of source lines 59-61. -/
def projectErrMsg : String :=
  "Error in " ++ PluginName ++
    ": Please provide the project field in the tenderly object in hardhat.config.js"

/-- The log line of source lines 65-69. -/
def usernameErrMsg : String :=
  "Error in " ++ PluginName ++
    ": Please provide the username field in the tenderly object in hardhat.config.js"

/-- `Tenderly.filterContracts` (source lines 147-179): assemble the
request via `getContractData`, then run the per-contract network loop.
Returns the request (or `null`) together with the `console.log` lines
the call emitted. -/
def filterContracts (env : Env) (flat : List ContractByName) :
    Option TenderlyContractUploadRequest × List String :=
  let requestData := getContractData env flat
  match filterContractsLoop env.cliNetwork flat requestData.contracts with
  | none => (none, [networkErrMsg])
  | some cs => (some { requestData with contracts := cs }, [])

/-- The rest-argument flattening of `verify`/`push` (source lines 27-30
and 51-54): `contracts.reduce((acc, v) => acc.concat(v), [])`. -/
def flattenContracts (css : List (List ContractByName)) : List ContractByName :=
  css.foldl (fun acc value => acc ++ value) []

/-- Observable outcome of a `verify` call: the `console.log` lines, and
the requests actually handed to `TenderlyService.verifyContracts`. -/
structure VerifyOutcome where
  logs : List String
  calls : List TenderlyContractUploadRequest
deriving DecidableEq

/-- `Tenderly.verify` (source lines 26-44).  `svc` is the behaviour of
`TenderlyService.verifyContracts` (an opaque network boundary): `ok` for
a normal return, `error` for a thrown exception.  The source's
`try`/`catch` appears as the match on `svc requestData`; an uncaught
exception would surface as `Except.error`. -/
def verify (env : Env) (svc : TenderlyContractUploadRequest → Except String Unit)
    (css : List (List ContractByName)) : Except String VerifyOutcome :=
  let flat := flattenContracts css
  match filterContracts env flat with
  | (none, logs) => Except.ok ⟨logs ++ ["Verification failed"], []⟩
  | (some requestData, logs) =>
    match svc requestData with
    | Except.ok _ => Except.ok ⟨logs, [requestData]⟩
    | Except.error err => Except.ok ⟨logs ++ [err], [requestData]⟩

/-- Observable outcome of a `push` call: the `console.log` lines, and
the (request, project, username) triples handed to
`TenderlyService.pushContracts`. -/
structure PushOutcome where
  logs : List String
  calls : List (TenderlyContractUploadRequest × String × String)
deriving DecidableEq

/-- `Tenderly.push` (source lines 50-86).  Mirrors the statement order of
the source: `filterContracts` runs (and logs) first, then the project
check, then the username check, then the `requestData == null` check,
then the guarded `TenderlyService.pushContracts` call. -/
def push (env : Env)
    (svc : TenderlyContractUploadRequest → String → String → Except String Unit)
    (css : List (List ContractByName)) : Except String PushOutcome :=
  let flat := flattenContracts css
  match filterContracts env flat with
  | (requestData, logs) =>
    match env.tenderlyProject with
    | none => Except.ok ⟨logs ++ [projectErrMsg], []⟩
    | some proj =>
      match env.tenderlyUsername with
      | none => Except.ok ⟨logs ++ [usernameErrMsg], []⟩
      | some user =>
        match requestData with
        | none => Except.ok ⟨logs ++ ["Push failed"], []⟩
        | some req =>
          match svc req proj user with
          | Except.ok _ => Except.ok ⟨logs, [(req, proj, user)]⟩
          | Except.error err => Except.ok ⟨logs ++ [err], [(req, proj, user)]⟩

/-- State-passing form of `filterContracts` over the `Tenderly` instance
state: the source methods read `this.env` and never reassign it or any
of its fields (all request state is freshly allocated per call), so the
instance state threads through unchanged. -/
def filterContractsS (s : Env) (flat : List ContractByName) :
    (Option TenderlyContractUploadRequest × List String) × Env :=
  (filterContracts s flat, s)

/-- The descriptive log line `push` emits for the first missing piece of
host configuration: the project message when the project is undefined,
else the username message. -/
def configMsg (env : Env) : String :=
  match env.tenderlyProject with
  | none => projectErrMsg
  | some _ => usernameErrMsg

/-- JS truthiness of an optional string: provided and non-empty.  This is
the reading of "present" used in claim C1, matching the source's use of
`||` on the CLI network argument. -/
def cliPresent : Option String → Bool
  | none => false
  | some s => !(s == "")

/-- Definition following the spec's words for claim C1, written as the
explicit three-branch decision the spec asks for: if the CLI network
argument is the sentinel "hardhat", use the contract's declared network;
otherwise use the CLI argument when present, and the declared network
when not. -/
def specResolveNetwork (cli declared : Option String) : Option String :=
  if cli = some "hardhat" then declared
  else if cliPresent cli then cli
  else declared

/-- The last element of the requested-contract list bearing a given name
(JS semantics of repeated assignment in a left-to-right loop). -/
def lastWithName (n : String) (flat : List ContractByName) : Option ContractByName :=
  flat.foldl (fun acc c => if c.name = n then some c else acc) none

/-- First request entry with the given contract name (the entry
`findIndex` selects on source line 165). -/
def findByName : List TenderlyContract → String → Option TenderlyContract
  | [], _ => none
  | e :: rest, n => if e.contractName = n then some e else findByName rest n

/-- Graph-consistency of a sources mapping: every recorded entry holds
the raw content of the first graph file with that source name. -/
def gConsistent (g : SourceGraph) (sources : List (String × String)) : Prop :=
  ∀ q v, lookupKey sources q = some v →
    ∃ f, findFile g q = some f ∧ f.rawContent = v

/-- Behaviour of `TenderlyService.verifyContracts` that returns normally. -/
def svcVOk : TenderlyContractUploadRequest → Except String Unit :=
  fun _ => Except.ok ()

/-- Behaviour of `TenderlyService.pushContracts` that returns normally. -/
def svcPOk : TenderlyContractUploadRequest → String → String → Except String Unit :=
  fun _ _ _ => Except.ok ()

/-- Behaviour of `TenderlyService.verifyContracts` that throws. -/
def svcVErr : TenderlyContractUploadRequest → Except String Unit :=
  fun _ => Except.error "service down"

/-- Behaviour of `TenderlyService.pushContracts` that throws. -/
def svcPErr : TenderlyContractUploadRequest → String → String → Except String Unit :=
  fun _ _ _ => Except.error "push down"

/-- Concrete environment for claim C2: no CLI network argument. -/
def envC2 : Env := ⟨none, "0.8.0", false, 0, some "proj", some "user", ⟨[]⟩⟩

/-- Concrete input for claim C2: one contract with no declared network. -/
def cssC2 : List (List ContractByName) := [[⟨"Token", "0xabc", none⟩]]

/-- Concrete environment for claim C3: one compiled source file. -/
def envC3 : Env :=
  ⟨none, "0.8.0", false, 0, some "proj", some "user",
    ⟨[⟨"contracts/Token.sol", "tokensrc", []⟩]⟩⟩

/-- Concrete input for claim C3: a declared network absent from `NetworkMap`. -/
def flatC3 : List ContractByName := [⟨"Token", "0xabc", some "bogusnet"⟩]

/-- The request the source assembles on `flatC3`: the networks key is the
string "undefined". -/
def reqC3 : TenderlyContractUploadRequest :=
  ⟨[⟨"Token", "tokensrc", "contracts/Token.sol", [("undefined", "0xabc")],
      ⟨"solc", "0.8.0"⟩⟩],
    ⟨"0.8.0", false, 0⟩⟩

/-- Concrete environment for claim C4: `Token.sol` imports `Lib.sol`. -/
def envC4 : Env :=
  ⟨some "mainnet", "0.8.0", false, 0, some "proj", some "user",
    ⟨[⟨"contracts/Token.sol", "tokensrc", ["contracts/Lib.sol"]⟩,
      ⟨"contracts/Lib.sol", "libsrc", []⟩]⟩⟩

/-- Concrete input for claim C4: only `Token` is requested. -/
def flatC4 : List ContractByName := [⟨"Token", "0xabc", none⟩]

/-- Concrete environment for claim C6. -/
def envC6 : Env :=
  ⟨some "mainnet", "0.8.0", false, 0, some "proj", some "user",
    ⟨[⟨"contracts/Token.sol", "tokensrc", []⟩]⟩⟩

/-- Concrete input for claim C6. -/
def cssC6 : List (List ContractByName) := [[⟨"Token", "0xabc", none⟩]]

/-- The request assembled on `cssC6`. -/
def reqC6 : TenderlyContractUploadRequest :=
  ⟨[⟨"Token", "tokensrc", "contracts/Token.sol", [("mainnet", "0xabc")],
      ⟨"solc", "0.8.0"⟩⟩],
    ⟨"0.8.0", false, 0⟩⟩

/-- Concrete environment for claim C7: the tenderly project field is
undefined and there is no CLI network argument. -/
def envC7 : Env :=
  ⟨none, "0.8.0", false, 0, none, some "user",
    ⟨[⟨"contracts/Token.sol", "tokensrc", []⟩]⟩⟩

/-- Concrete input for claim C7: a contract with no declared network, so
request assembly itself already logs a line. -/
def cssC7 : List (List ContractByName) := [[⟨"Token", "0xabc", none⟩]]

/-- Concrete environment for claim C9: `Token.sol` and `Coin.sol`
both import `Lib.sol`. -/
def envC9 : Env :=
  ⟨some "mainnet", "0.8.0", false, 0, some "proj", some "user",
    ⟨[⟨"contracts/Token.sol", "tokensrc", ["contracts/Lib.sol"]⟩,
      ⟨"contracts/Coin.sol", "coinsrc", ["contracts/Lib.sol"]⟩,
      ⟨"contracts/Lib.sol", "libsrc", []⟩]⟩⟩

/-- Concrete input for claim C9: both importing contracts are requested. -/
def flatC9 : List ContractByName := [⟨"Token", "0x1", none⟩, ⟨"Coin", "0x2", none⟩]

/-- Concrete environment for claim C10. -/
def envC10 : Env :=
  ⟨none, "0.8.0", false, 0, some "proj", some "user",
    ⟨[⟨"contracts/Token.sol", "tokensrc", []⟩]⟩⟩

/-- Concrete input for claim C10: the name `Token` is requested twice with
different addresses and networks. -/
def flatC10 : List ContractByName :=
  [⟨"Token", "0x1", some "mainnet"⟩, ⟨"Token", "0x2", some "ropsten"⟩]

/-- The second (last) requested `Token` of `flatC10`. -/
def cC10 : ContractByName := ⟨"Token", "0x2", some "ropsten"⟩

/-- The `Token` entry as `getContractData` assembles it, before
`filterContracts` attaches a network. -/
def e0C10 : TenderlyContract :=
  ⟨"Token", "tokensrc", "contracts/Token.sol", [], ⟨"solc", "0.8.0"⟩⟩

/-- The request `filterContracts` returns on `flatC10`: only the last
requested pair survives. -/
def reqC10 : TenderlyContractUploadRequest :=
  ⟨[⟨"Token", "tokensrc", "contracts/Token.sol", [("ropsten", "0x2")],
      ⟨"solc", "0.8.0"⟩⟩],
    ⟨"0.8.0", false, 0⟩⟩

theorem lookupKey_assocSet_self (m : List (String × String)) (k v : String) :
    lookupKey (assocSet m k v) k = some v := by
  induction m with
  | nil => simp [assocSet, lookupKey]
  | cons kv rest ih =>
    by_cases h : kv.1 = k
    · simp [assocSet, lookupKey, h]
    · simp [assocSet, lookupKey, h, ih]

theorem lookupKey_assocSet_ne (m : List (String × String)) (k v q : String)
    (hq : q ≠ k) : lookupKey (assocSet m k v) q = lookupKey m q := by
  induction m with
  | nil =>
    have hkq : ¬ (k = q) := fun h2 => hq h2.symm
    simp [assocSet, lookupKey, hkq]
  | cons kv rest ih =>
    by_cases h : kv.1 = k
    · have hkq : ¬ (k = q) := fun h2 => hq h2.symm
      have hkvq : ¬ (kv.1 = q) := by rw [h]; exact hkq
      simp [assocSet, lookupKey, h, hkq, hkvq]
    · simp only [assocSet, if_neg h, lookupKey]
      by_cases h2 : kv.1 = q <;> simp [h2, ih]

theorem mem_keys_assocSet (m : List (String × String)) (k v q : String) :
    q ∈ (assocSet m k v).map Prod.fst ↔ q = k ∨ q ∈ m.map Prod.fst := by
  induction m with
  | nil => simp [assocSet]
  | cons kv rest ih =>
    by_cases h : kv.1 = k
    · simp only [assocSet, if_pos h, List.map_cons, List.mem_cons]
      rw [h]
      tauto
    · simp only [assocSet, if_neg h, List.map_cons, List.mem_cons, ih]
      tauto

theorem nodup_keys_assocSet (m : List (String × String)) (k v : String)
    (h : (m.map Prod.fst).Nodup) : ((assocSet m k v).map Prod.fst).Nodup := by
  induction m with
  | nil => simp [assocSet]
  | cons kv rest ih =>
    rw [List.map_cons, List.nodup_cons] at h
    by_cases hk : kv.1 = k
    · simp only [assocSet, if_pos hk, List.map_cons, List.nodup_cons]
      exact ⟨by rw [← hk]; exact h.1, h.2⟩
    · simp only [assocSet, if_neg hk, List.map_cons, List.nodup_cons]
      refine ⟨fun hmem => ?_, ih h.2⟩
      rcases (mem_keys_assocSet rest k v kv.1).mp hmem with h1 | h1
      · exact hk h1
      · exact h.1 h1

theorem mem_keys_iff_lookupKey (m : List (String × String)) (q : String) :
    q ∈ m.map Prod.fst ↔ ∃ v, lookupKey m q = some v := by
  induction m with
  | nil => simp [lookupKey]
  | cons kv rest ih =>
    by_cases h : kv.1 = q
    · simp [lookupKey, h]
    · simp only [List.map_cons, List.mem_cons, lookupKey, if_neg h, ih]
      constructor
      · rintro (h1 | h1)
        · exact absurd h1.symm h
        · exact h1
      · exact fun h1 => Or.inr h1

theorem foldl_mem_pres {α β : Type} (P : α → Prop) (f : α → β → α) :
    ∀ (l : List β), (∀ a b, b ∈ l → P a → P (f a b)) → ∀ a, P a → P (l.foldl f a)
  | [], _, _, ha => ha
  | b :: rest, h, a, ha =>
    foldl_mem_pres P f rest (fun a' b' hb' => h a' b' (List.mem_cons_of_mem b hb'))
      (f a b) (h a b (List.mem_cons_self b rest) ha)

theorem foldl_mem_reach {α β : Type} (P : α → Prop) (f : α → β → α) :
    ∀ (l : List β) (b : β), b ∈ l → (∀ a b', b' ∈ l → P a → P (f a b')) →
      (∀ a, P (f a b)) → ∀ a, P (l.foldl f a) := by
  intro l
  induction l with
  | nil => intro b hb; exact absurd hb (List.not_mem_nil b)
  | cons x rest ih =>
    intro b hb hpres hstep a
    rcases List.mem_cons.mp hb with hbx | hbrest
    · rw [List.foldl_cons]
      exact foldl_mem_pres P f rest
        (fun a' b' hb' => hpres a' b' (List.mem_cons_of_mem x hb'))
        (f a x) (by rw [hbx] at hstep; exact hstep a)
    · rw [List.foldl_cons]
      exact ih b hbrest (fun a' b' hb' => hpres a' b' (List.mem_cons_of_mem x hb'))
        hstep (f a x)

theorem resolveDeps_vis_mono (g : SourceGraph) (todo : List String) (md : Metadata)
    (vis : List String) : ∀ q ∈ vis, q ∈ (resolveDeps g todo md vis).vis := by
  induction todo, md, vis using resolveDeps.induct g with
  | case1 md vis => intro q hq; simp [resolveDeps]; exact hq
  | case2 md vis p rest hv ih =>
    intro q hq
    rw [resolveDeps]
    simp only [dif_pos hv]
    exact ih q hq
  | case3 md vis p rest hv hf ih =>
    intro q hq
    rw [resolveDeps]
    simp only [dif_neg hv, hf]
    exact ih q hq
  | case4 md vis p rest hv fm hf ih =>
    intro q hq
    rw [resolveDeps]
    simp only [dif_neg hv, hf]
    exact ih q (List.mem_cons_of_mem p hq)

theorem resolveDeps_trace_spec (g : SourceGraph) (todo : List String) (md : Metadata)
    (vis : List String) :
    (resolveDeps g todo md vis).trace.Nodup ∧
      (∀ q ∈ (resolveDeps g todo md vis).trace, q ∉ vis) ∧
      (∀ q ∈ (resolveDeps g todo md vis).trace, q ∈ (resolveDeps g todo md vis).vis) := by
  induction todo, md, vis using resolveDeps.induct g with
  | case1 md vis => simp [resolveDeps]
  | case2 md vis p rest hv ih =>
    rw [resolveDeps]
    simp only [dif_pos hv]
    exact ih
  | case3 md vis p rest hv hf ih =>
    rw [resolveDeps]
    simp only [dif_neg hv, hf]
    exact ih
  | case4 md vis p rest hv fm hf ih =>
    rw [resolveDeps]
    simp only [dif_neg hv, hf]
    refine ⟨?_, ?_, ?_⟩
    · rw [List.nodup_cons]
      refine ⟨fun hmem => ?_, ih.1⟩
      exact (ih.2.1 p hmem) (List.mem_cons_self p _)
    · intro q hq
      rcases List.mem_cons.mp hq with hqp | hqt
      · rw [hqp]; exact hv
      · intro hqvis
        exact (ih.2.1 q hqt) (List.mem_cons_of_mem p hqvis)
    · intro q hq
      rcases List.mem_cons.mp hq with hqp | hqt
      · rw [hqp]
        exact resolveDeps_vis_mono g _ _ _ p (List.mem_cons_self p vis)
      · exact ih.2.2 q hqt

theorem resolveDeps_lookup_of_vis (g : SourceGraph) (todo : List String) (md : Metadata)
    (vis : List String) :
    ∀ q ∈ vis, lookupKey (resolveDeps g todo md vis).md.sources q = lookupKey md.sources q := by
  induction todo, md, vis using resolveDeps.induct g with
  | case1 md vis => intro q _; simp [resolveDeps]
  | case2 md vis p rest hv ih =>
    intro q hq
    rw [resolveDeps]
    simp only [dif_pos hv]
    exact ih q hq
  | case3 md vis p rest hv hf ih =>
    intro q hq
    rw [resolveDeps]
    simp only [dif_neg hv, hf]
    exact ih q hq
  | case4 md vis p rest hv fm hf ih =>
    intro q hq
    rw [resolveDeps]
    simp only [dif_neg hv, hf]
    have hqp : q ≠ p := fun h => hv (h ▸ hq)
    rw [ih q (List.mem_cons_of_mem p hq)]
    exact lookupKey_assocSet_ne md.sources p fm.1.rawContent q hqp

theorem resolveDeps_keys_mono (g : SourceGraph) (todo : List String) (md : Metadata)
    (vis : List String) :
    ∀ q ∈ md.sources.map Prod.fst, q ∈ (resolveDeps g todo md vis).md.sources.map Prod.fst := by
  induction todo, md, vis using resolveDeps.induct g with
  | case1 md vis => intro q hq; simpa [resolveDeps] using hq
  | case2 md vis p rest hv ih =>
    intro q hq
    rw [resolveDeps]
    simp only [dif_pos hv]
    exact ih q hq
  | case3 md vis p rest hv hf ih =>
    intro q hq
    rw [resolveDeps]
    simp only [dif_neg hv, hf]
    exact ih q hq
  | case4 md vis p rest hv fm hf ih =>
    intro q hq
    rw [resolveDeps]
    simp only [dif_neg hv, hf]
    exact ih q ((mem_keys_assocSet md.sources p fm.1.rawContent q).mpr (Or.inr hq))

theorem resolveDeps_keys_nodup (g : SourceGraph) (todo : List String) (md : Metadata)
    (vis : List String) (h : (md.sources.map Prod.fst).Nodup) :
    ((resolveDeps g todo md vis).md.sources.map Prod.fst).Nodup := by
  induction todo, md, vis using resolveDeps.induct g with
  | case1 md vis => simpa [resolveDeps] using h
  | case2 md vis p rest hv ih =>
    rw [resolveDeps]
    simp only [dif_pos hv]
    exact ih h
  | case3 md vis p rest hv hf ih =>
    rw [resolveDeps]
    simp only [dif_neg hv, hf]
    exact ih h
  | case4 md vis p rest hv fm hf ih =>
    rw [resolveDeps]
    simp only [dif_neg hv, hf]
    exact ih (nodup_keys_assocSet md.sources p fm.1.rawContent h)

theorem resolveDeps_gConsistent (g : SourceGraph) (todo : List String) (md : Metadata)
    (vis : List String) (h : gConsistent g md.sources) :
    gConsistent g (resolveDeps g todo md vis).md.sources := by
  induction todo, md, vis using resolveDeps.induct g with
  | case1 md vis => simpa [resolveDeps] using h
  | case2 md vis p rest hv ih =>
    rw [resolveDeps]
    simp only [dif_pos hv]
    exact ih h
  | case3 md vis p rest hv hf ih =>
    rw [resolveDeps]
    simp only [dif_neg hv, hf]
    exact ih h
  | case4 md vis p rest hv fm hf ih =>
    rw [resolveDeps]
    simp only [dif_neg hv, hf]
    apply ih
    intro q v hqv
    by_cases hqp : q = p
    · subst hqp
      rw [lookupKey_assocSet_self] at hqv
      refine ⟨fm.1, ?_, (Option.some.injEq _ _).mp hqv⟩
      unfold findFile
      rw [hf]
      rfl
    · rw [lookupKey_assocSet_ne md.sources p fm.1.rawContent q hqp] at hqv
      exact h q v hqv

theorem resolveDeps_records (g : SourceGraph) (todo : List String) (md : Metadata)
    (vis : List String) :
    ∀ q, q ∈ todo → q ∉ vis → (∃ fq, findFileMem g.resolvedFiles q = some fq) →
      q ∈ (resolveDeps g todo md vis).md.sources.map Prod.fst := by
  induction todo, md, vis using resolveDeps.induct g with
  | case1 md vis => intro q hq; exact absurd hq (List.not_mem_nil q)
  | case2 md vis p rest hv ih =>
    intro q hq hqv hfq
    rw [resolveDeps]
    simp only [dif_pos hv]
    rcases List.mem_cons.mp hq with hqp | hqt
    · exact absurd (hqp ▸ hv) hqv
    · exact ih q hqt hqv hfq
  | case3 md vis p rest hv hf ih =>
    intro q hq hqv hfq
    rw [resolveDeps]
    simp only [dif_neg hv, hf]
    rcases List.mem_cons.mp hq with hqp | hqt
    · rcases hfq with ⟨fq, hfq⟩
      rw [← hqp] at hf
      rw [hfq] at hf
      exact absurd hf (Option.some_ne_none fq)
    · exact ih q hqt hqv hfq
  | case4 md vis p rest hv fm hf ih =>
    intro q hq hqv hfq
    rw [resolveDeps]
    simp only [dif_neg hv, hf]
    by_cases hqp : q = p
    · subst hqp
      apply resolveDeps_keys_mono
      exact (mem_keys_assocSet md.sources q fm.1.rawContent q).mpr (Or.inl rfl)
    · have hqt : q ∈ rest := by
        rcases List.mem_cons.mp hq with h1 | h1
        · exact absurd h1 hqp
        · exact h1
      exact ih q (List.mem_append_right fm.1.imports hqt)
        (fun hmem => by
          rcases List.mem_cons.mp hmem with h1 | h1
          · exact hqp h1
          · exact hqv h1)
        hfq

theorem findFileMem_of_mem_nodup (l : List ResolvedFile) (rf : ResolvedFile)
    (hnodup : (l.map (fun f => f.sourceName)).Nodup) (hrf : rf ∈ l) :
    (findFileMem l rf.sourceName).map (fun x => x.1) = some rf := by
  induction l with
  | nil => exact absurd hrf (List.not_mem_nil rf)
  | cons a rest ih =>
    rw [List.map_cons, List.nodup_cons] at hnodup
    rcases List.mem_cons.mp hrf with h1 | h1
    · subst h1
      simp [findFileMem]
    · have hne : ¬ (a.sourceName = rf.sourceName) := by
        intro he
        apply hnodup.1
        rw [he]
        exact List.mem_map.mpr ⟨rf, h1, rfl⟩
      simp only [findFileMem, dif_neg hne, Option.map_map]
      exact ih hnodup.2 h1

theorem findFile_of_mem_nodup (g : SourceGraph) (rf : ResolvedFile)
    (hnodup : (g.resolvedFiles.map (fun f => f.sourceName)).Nodup)
    (hrf : rf ∈ g.resolvedFiles) : findFile g rf.sourceName = some rf :=
  findFileMem_of_mem_nodup g.resolvedFiles rf hnodup hrf

theorem recordAndResolve_keys_mono (g : SourceGraph) (rf : ResolvedFile) (md : Metadata)
    (q : String) (hq : q ∈ md.sources.map Prod.fst) :
    q ∈ (recordAndResolve g rf md).sources.map Prod.fst := by
  unfold recordAndResolve
  apply resolveDeps_keys_mono
  exact (mem_keys_assocSet md.sources rf.sourceName rf.rawContent q).mpr (Or.inr hq)

theorem recordAndResolve_self_mem (g : SourceGraph) (rf : ResolvedFile) (md : Metadata) :
    rf.sourceName ∈ (recordAndResolve g rf md).sources.map Prod.fst := by
  unfold recordAndResolve
  apply resolveDeps_keys_mono
  exact (mem_keys_assocSet md.sources rf.sourceName rf.rawContent rf.sourceName).mpr (Or.inl rfl)

theorem recordAndResolve_keys_nodup (g : SourceGraph) (rf : ResolvedFile) (md : Metadata)
    (h : (md.sources.map Prod.fst).Nodup) :
    ((recordAndResolve g rf md).sources.map Prod.fst).Nodup := by
  unfold recordAndResolve
  exact resolveDeps_keys_nodup g _ _ _
    (nodup_keys_assocSet md.sources rf.sourceName rf.rawContent h)

theorem recordAndResolve_gConsistent (g : SourceGraph) (rf : ResolvedFile) (md : Metadata)
    (hfind : findFile g rf.sourceName = some rf) (h : gConsistent g md.sources) :
    gConsistent g (recordAndResolve g rf md).sources := by
  unfold recordAndResolve
  apply resolveDeps_gConsistent
  intro q v hqv
  by_cases hq : q = rf.sourceName
  · subst hq
    rw [lookupKey_assocSet_self] at hqv
    exact ⟨rf, hfind, (Option.some.injEq _ _).mp hqv⟩
  · rw [lookupKey_assocSet_ne md.sources rf.sourceName rf.rawContent q hq] at hqv
    exact h q v hqv

theorem recordAndResolve_import_mem (g : SourceGraph) (rf : ResolvedFile) (md : Metadata)
    (L : String) (hfind : findFile g rf.sourceName = some rf) (hL : L ∈ rf.imports)
    (hfL : ∃ fl, findFileMem g.resolvedFiles L = some fl) :
    L ∈ (recordAndResolve g rf md).sources.map Prod.fst := by
  unfold recordAndResolve
  rw [resolveDeps]
  have hv : ¬ rf.sourceName ∈ ([] : List String) := List.not_mem_nil _
  simp only [dif_neg hv]
  rcases hm : findFileMem g.resolvedFiles rf.sourceName with _ | fm
  · unfold findFile at hfind
    rw [hm] at hfind
    exact absurd hfind (by simp)
  · have hfm : fm.1 = rf := by
      unfold findFile at hfind
      rw [hm] at hfind
      simpa using hfind
    by_cases hLp : L = rf.sourceName
    · subst hLp
      apply resolveDeps_keys_mono
      exact (mem_keys_assocSet _ _ _ rf.sourceName).mpr (Or.inl rfl)
    · apply resolveDeps_records
      · rw [hfm]
        exact List.mem_append_left [] hL
      · simpa using hLp
      · exact hfL

theorem metadataStep_keys_mono (g : SourceGraph) (flat : List ContractByName)
    (md : Metadata) (rf : ResolvedFile) (q : String) (hq : q ∈ md.sources.map Prod.fst) :
    q ∈ (metadataStep g flat md rf).sources.map Prod.fst := by
  unfold metadataStep
  refine foldl_mem_pres (fun (md : Metadata) => q ∈ md.sources.map Prod.fst) _ _ ?_ _ hq
  intro a c _ ha
  by_cases hc : c.name = shortName rf.sourceName
  · simp only [if_pos hc]
    exact recordAndResolve_keys_mono g rf a q ha
  · simpa [if_neg hc] using ha

theorem metadataStep_keys_nodup (g : SourceGraph) (flat : List ContractByName)
    (md : Metadata) (rf : ResolvedFile) (h : (md.sources.map Prod.fst).Nodup) :
    ((metadataStep g flat md rf).sources.map Prod.fst).Nodup := by
  unfold metadataStep
  refine foldl_mem_pres (fun (md : Metadata) => (md.sources.map Prod.fst).Nodup) _ _ ?_ _ h
  intro a c _ ha
  by_cases hc : c.name = shortName rf.sourceName
  · simp only [if_pos hc]
    exact recordAndResolve_keys_nodup g rf a ha
  · simpa [if_neg hc] using ha

theorem metadataStep_gConsistent (g : SourceGraph) (flat : List ContractByName)
    (md : Metadata) (rf : ResolvedFile) (hfind : findFile g rf.sourceName = some rf)
    (h : gConsistent g md.sources) : gConsistent g (metadataStep g flat md rf).sources := by
  unfold metadataStep
  refine foldl_mem_pres (fun (md : Metadata) => gConsistent g md.sources) _ _ ?_ _ h
  intro a c _ ha
  by_cases hc : c.name = shortName rf.sourceName
  · simp only [if_pos hc]
    exact recordAndResolve_gConsistent g rf a hfind ha
  · simpa [if_neg hc] using ha

theorem metadataStep_matched (g : SourceGraph) (flat : List ContractByName)
    (rf : ResolvedFile) (c : ContractByName) (hc : c ∈ flat)
    (hn : c.name = shortName rf.sourceName) (P : Metadata → Prop)
    (hpres : ∀ md, P md → P (recordAndResolve g rf md))
    (hstep : ∀ md, P (recordAndResolve g rf md)) (md : Metadata) :
    P (metadataStep g flat md rf) := by
  unfold metadataStep
  refine foldl_mem_reach P _ flat c hc ?_ ?_ md
  · intro a c' _ ha
    by_cases hc' : c'.name = shortName rf.sourceName
    · simp only [if_pos hc']
      exact hpres a ha
    · simpa [if_neg hc'] using ha
  · intro a
    simp only [if_pos hn]
    exact hstep a

theorem buildMetadata_keys_nodup (env : Env) (flat : List ContractByName) :
    ((buildMetadata env flat).sources.map Prod.fst).Nodup := by
  unfold buildMetadata
  refine foldl_mem_pres (fun (md : Metadata) => (md.sources.map Prod.fst).Nodup) _ _ ?_ _ ?_
  · intro a rf _ ha
    exact metadataStep_keys_nodup env.graph flat a rf ha
  · simp

theorem buildMetadata_gConsistent (env : Env) (flat : List ContractByName)
    (hnodup : (env.graph.resolvedFiles.map (fun f => f.sourceName)).Nodup) :
    gConsistent env.graph (buildMetadata env flat).sources := by
  unfold buildMetadata
  refine foldl_mem_pres (fun (md : Metadata) => gConsistent env.graph md.sources) _ _ ?_ _ ?_
  · intro a rf hrf ha
    exact metadataStep_gConsistent env.graph flat a rf
      (findFile_of_mem_nodup env.graph rf hnodup hrf) ha
  · intro q v hqv
    simp [lookupKey] at hqv

theorem buildMetadata_matched_mem (env : Env) (flat : List ContractByName)
    (rf : ResolvedFile) (c : ContractByName) (hrf : rf ∈ env.graph.resolvedFiles)
    (hc : c ∈ flat) (hn : c.name = shortName rf.sourceName) :
    rf.sourceName ∈ (buildMetadata env flat).sources.map Prod.fst := by
  unfold buildMetadata
  refine foldl_mem_reach (fun (md : Metadata) => rf.sourceName ∈ md.sources.map Prod.fst)
    _ env.graph.resolvedFiles rf hrf ?_ ?_ _
  · intro a rf' _ ha
    exact metadataStep_keys_mono env.graph flat a rf' _ ha
  · intro a
    exact metadataStep_matched env.graph flat rf c hc hn
      (fun md => rf.sourceName ∈ md.sources.map Prod.fst)
      (fun md h => recordAndResolve_keys_mono env.graph rf md _ h)
      (fun md => recordAndResolve_self_mem env.graph rf md) a

theorem buildMetadata_import_mem (env : Env) (flat : List ContractByName)
    (rf : ResolvedFile) (c : ContractByName) (L : String)
    (hnodup : (env.graph.resolvedFiles.map (fun f => f.sourceName)).Nodup)
    (hrf : rf ∈ env.graph.resolvedFiles) (hc : c ∈ flat)
    (hn : c.name = shortName rf.sourceName) (hL : L ∈ rf.imports)
    (hfL : ∃ fl, findFileMem env.graph.resolvedFiles L = some fl) :
    L ∈ (buildMetadata env flat).sources.map Prod.fst := by
  unfold buildMetadata
  refine foldl_mem_reach (fun (md : Metadata) => L ∈ md.sources.map Prod.fst)
    _ env.graph.resolvedFiles rf hrf ?_ ?_ _
  · intro a rf' _ ha
    exact metadataStep_keys_mono env.graph flat a rf' _ ha
  · intro a
    exact metadataStep_matched env.graph flat rf c hc hn
      (fun md => L ∈ md.sources.map Prod.fst)
      (fun md h => recordAndResolve_keys_mono env.graph rf md _ h)
      (fun md => recordAndResolve_import_mem env.graph rf md L
        (findFile_of_mem_nodup env.graph rf hnodup hrf) hL hfL) a

theorem getContracts_paths (env : Env) (flat : List ContractByName) :
    (getContracts env flat).map (fun e => e.sourcePath) =
      (buildMetadata env flat).sources.map Prod.fst := by
  unfold getContracts
  rw [List.map_map]
  rfl

theorem getContracts_networks (env : Env) (flat : List ContractByName) :
    ∀ e ∈ getContracts env flat, e.networks = [] := by
  intro e he
  unfold getContracts at he
  rcases List.mem_map.mp he with ⟨kv, _, hkv⟩
  rw [← hkv]

theorem getContracts_entry_of_key (env : Env) (flat : List ContractByName) (k : String)
    (hk : k ∈ (buildMetadata env flat).sources.map Prod.fst) :
    ∃ e ∈ getContracts env flat, e.sourcePath = k ∧ e.contractName = shortName k := by
  rcases List.mem_map.mp hk with ⟨kv, hkv, hfst⟩
  refine ⟨_, List.mem_map.mpr ⟨kv, hkv, rfl⟩, ?_, ?_⟩
  · exact hfst
  · rw [hfst]

theorem filterContractsLoop_none (cli : Option String) :
    ∀ (flat : List ContractByName),
      (∃ c ∈ flat, resolveNetwork cli c.network = none) →
      ∀ cs, filterContractsLoop cli flat cs = none := by
  intro flat
  induction flat with
  | nil => rintro ⟨c, hc, _⟩; exact absurd hc (List.not_mem_nil c)
  | cons c0 rest ih =>
    rintro ⟨c, hc, hcn⟩ cs
    rcases hr : resolveNetwork cli c0.network with _ | net
    · simp [filterContractsLoop, hr]
    · rcases List.mem_cons.mp hc with hcc | hcrest
      · rw [hcc] at hcn
        rw [hcn] at hr
        exact absurd hr (by simp)
      · simp only [filterContractsLoop, hr]
        exact ih ⟨c, hcrest, hcn⟩ _

theorem filterContracts_logs (env : Env) (flat : List ContractByName) :
    (filterContracts env flat).2 = [] ∨ (filterContracts env flat).2 = [networkErrMsg] := by
  unfold filterContracts
  rcases h : filterContractsLoop env.cliNetwork flat (getContractData env flat).contracts with
      _ | cs
  · simp [h]
  · simp [h]

theorem setNetworksAtFirst_mem (cs : List TenderlyContract) (n : String)
    (kv : String × String) :
    ∀ e ∈ setNetworksAtFirst cs n kv,
      e ∈ cs ∨ ∃ e0 ∈ cs, e = { e0 with networks := [kv] } := by
  induction cs with
  | nil => intro e he; simp [setNetworksAtFirst] at he
  | cons a rest ih =>
    intro e he
    by_cases ha : a.contractName = n
    · simp only [setNetworksAtFirst, if_pos ha] at he
      rcases List.mem_cons.mp he with h1 | h1
      · exact Or.inr ⟨a, List.mem_cons_self a rest, h1⟩
      · exact Or.inl (List.mem_cons_of_mem a h1)
    · simp only [setNetworksAtFirst, if_neg ha] at he
      rcases List.mem_cons.mp he with h1 | h1
      · exact Or.inl (h1 ▸ List.mem_cons_self a rest)
      · rcases ih e h1 with h2 | ⟨e0, he0, he0e⟩
        · exact Or.inl (List.mem_cons_of_mem a h2)
        · exact Or.inr ⟨e0, List.mem_cons_of_mem a he0, he0e⟩

theorem setNetworksAtFirst_find_self (cs : List TenderlyContract) (n : String)
    (kv : String × String) :
    findByName (setNetworksAtFirst cs n kv) n =
      (findByName cs n).map (fun e => { e with networks := [kv] }) := by
  induction cs with
  | nil => simp [setNetworksAtFirst, findByName]
  | cons a rest ih =>
    by_cases ha : a.contractName = n
    · simp [setNetworksAtFirst, findByName, ha]
    · simp only [setNetworksAtFirst, if_neg ha, findByName, ha, ite_false, ih]

theorem setNetworksAtFirst_find_ne (cs : List TenderlyContract) (m n : String)
    (kv : String × String) (hmn : ¬ m = n) :
    findByName (setNetworksAtFirst cs m kv) n = findByName cs n := by
  have hnm : ¬ n = m := fun h2 => hmn h2.symm
  induction cs with
  | nil => simp [setNetworksAtFirst]
  | cons a rest ih =>
    by_cases ha : a.contractName = m
    · have han : ¬ a.contractName = n := by rw [ha]; exact hmn
      simp [setNetworksAtFirst, findByName, ha, han, hmn]
    · by_cases han : a.contractName = n
      · simp [setNetworksAtFirst, findByName, ha, han, hnm]
      · simp [setNetworksAtFirst, findByName, ha, han, ih]

theorem lastWithName_aux (n : String) :
    ∀ (l : List ContractByName) (acc : Option ContractByName),
      l.foldl (fun acc c => if c.name = n then some c else acc) acc =
        Option.or (l.foldl (fun acc c => if c.name = n then some c else acc) none) acc := by
  intro l
  induction l with
  | nil => intro acc; simp [Option.or]
  | cons c0 rest ih =>
    intro acc
    rw [List.foldl_cons, List.foldl_cons, ih, ih (if c0.name = n then some c0 else none)]
    by_cases hc : c0.name = n
    · rcases hx : rest.foldl (fun acc c => if c.name = n then some c else acc) none with _ | c1
      · simp [hc, hx, Option.or]
      · simp [hc, hx, Option.or]
    · rcases hx : rest.foldl (fun acc c => if c.name = n then some c else acc) none with _ | c1
      · simp [hc, hx, Option.or]
      · simp [hc, hx, Option.or]

theorem lastWithName_cons (n : String) (c0 : ContractByName) (rest : List ContractByName) :
    lastWithName n (c0 :: rest) =
      Option.or (lastWithName n rest) (if c0.name = n then some c0 else none) := by
  unfold lastWithName
  rw [List.foldl_cons]
  exact lastWithName_aux n rest _

theorem filterContractsLoop_find (cli : Option String) :
    ∀ (flat : List ContractByName) (cs cs' : List TenderlyContract),
      filterContractsLoop cli flat cs = some cs' → ∀ n : String,
      (lastWithName n flat = none → findByName cs' n = findByName cs n) ∧
      (∀ c, lastWithName n flat = some c →
        ∃ net, resolveNetwork cli c.network = some net ∧
          findByName cs' n = (findByName cs n).map
            (fun e => { e with networks := [(networkKey net, c.address)] })) := by
  intro flat
  induction flat with
  | nil =>
    intro cs cs' h n
    have hcs : cs = cs' := by simpa [filterContractsLoop] using h
    subst hcs
    constructor
    · intro _; rfl
    · intro c hc; exact absurd hc (by simp [lastWithName])
  | cons c0 rest ih =>
    intro cs cs' h n
    rcases hr : resolveNetwork cli c0.network with _ | net0
    · rw [filterContractsLoop, hr] at h
      exact absurd h (by simp)
    · rw [filterContractsLoop, hr] at h
      have hlast := lastWithName_cons n c0 rest
      rcases hrest : lastWithName n rest with _ | c1
      · rw [hrest] at hlast
        by_cases hc0 : c0.name = n
        · rw [if_pos hc0] at hlast
          constructor
          · intro habs
            rw [habs] at hlast
            exact absurd hlast.symm (by simp [Option.or])
          · intro c hc
            rw [hc] at hlast
            have hcc0 : c0 = c := by simpa [Option.or] using hlast.symm
            have h1 := ((ih _ cs' h n).1) hrest
            rw [h1, ← hcc0]
            refine ⟨net0, hr, ?_⟩
            rw [hc0, setNetworksAtFirst_find_self cs n (networkKey net0, c0.address)]
        · rw [if_neg hc0] at hlast
          constructor
          · intro _
            have h1 := ((ih _ cs' h n).1) hrest
            rw [h1]
            exact setNetworksAtFirst_find_ne cs c0.name n (networkKey net0, c0.address) hc0
          · intro c hc
            rw [hc] at hlast
            exact absurd hlast.symm (by simp [Option.or])
      · rw [hrest] at hlast
        have hlast2 : lastWithName n (c0 :: rest) = some c1 := by
          rw [hlast]
          simp [Option.or]
        constructor
        · intro habs
          rw [habs] at hlast2
          exact absurd hlast2 (by simp)
        · intro c hc
          have hcc1 : c = c1 := by
            rw [hc] at hlast2
            exact (Option.some.injEq _ _).mp hlast2
          subst hcc1
          rcases ((ih _ cs' h n).2) c hrest with ⟨net, hnet, hfind⟩
          refine ⟨net, hnet, ?_⟩
          rw [hfind]
          by_cases hc0n : c0.name = n
          · rw [hc0n, setNetworksAtFirst_find_self cs n (networkKey net0, c0.address),
              Option.map_map]
            rfl
          · rw [setNetworksAtFirst_find_ne cs c0.name n (networkKey net0, c0.address) hc0n]

theorem filterContractsLoop_networks (cli : Option String) :
    ∀ (flat : List ContractByName) (cs cs' : List TenderlyContract),
      filterContractsLoop cli flat cs = some cs' →
      (∀ e ∈ cs, e.networks = [] ∨ ∃ kv, e.networks = [kv]) →
      ∀ e ∈ cs', e.networks = [] ∨ ∃ kv, e.networks = [kv] := by
  intro flat
  induction flat with
  | nil =>
    intro cs cs' h hP
    have hcs : cs = cs' := by simpa [filterContractsLoop] using h
    subst hcs
    exact hP
  | cons c0 rest ih =>
    intro cs cs' h hP
    rcases hr : resolveNetwork cli c0.network with _ | net0
    · rw [filterContractsLoop, hr] at h
      exact absurd h (by simp)
    · rw [filterContractsLoop, hr] at h
      refine ih _ cs' h ?_
      intro e he
      rcases setNetworksAtFirst_mem cs c0.name (networkKey net0, c0.address) e he with
          h1 | ⟨e0, _, he0⟩
      · exact hP e h1
      · exact Or.inr ⟨(networkKey net0, c0.address), by rw [he0]⟩

theorem filterContracts_none (env : Env) (flat : List ContractByName)
    (h : ∃ c ∈ flat, resolveNetwork env.cliNetwork c.network = none) :
    filterContracts env flat = (none, [networkErrMsg]) := by
  simp only [filterContracts]
  rw [filterContractsLoop_none env.cliNetwork flat h]

/-- Claim C1: for every requested contract, `filterContracts` resolves its
target network by the three-branch rule: when the CLI network argument is
not the sentinel "hardhat", the CLI argument is used when present
(provided and non-empty, i.e. JS-truthy) and otherwise the contract's own
declared network; when the CLI argument equals "hardhat", the contract's
own declared network is used.  `resolveNetwork` is the per-contract
resolution performed inside `filterContracts`, and `specResolveNetwork`
is the spec's three-branch rule. -/
theorem claim_C1 (cli : Option String) (c : ContractByName) :
    resolveNetwork cli c.network = specResolveNetwork cli c.network := by
  unfold resolveNetwork specResolveNetwork jsOr cliPresent
  rcases cli with _ | s
  · simp
  · by_cases hs : s = "hardhat"
    · subst hs; simp
    · have hs2 : ¬ (some s = some "hardhat") := by simpa using hs
      by_cases he : s = ""
      · subst he; simp
      · simp [hs2, he]

/-- Claim C2: whenever some requested contract has no resolvable network,
`filterContracts` returns null for the whole batch, and `verify` makes no
call to `TenderlyService.verifyContracts` and only logs the network error
and the failure message. -/
theorem claim_C2 (env : Env) (css : List (List ContractByName))
    (svc : TenderlyContractUploadRequest → Except String Unit)
    (h : ∃ c ∈ flattenContracts css, resolveNetwork env.cliNetwork c.network = none) :
    (filterContracts env (flattenContracts css)).1 = none ∧
    verify env svc css = Except.ok ⟨[networkErrMsg, "Verification failed"], []⟩ := by
  have hfc := filterContracts_none env (flattenContracts css) h
  constructor
  · rw [hfc]
  · simp only [verify]
    rw [hfc]
    rfl

/-- Witness for claim C2 at a concrete input: one requested contract with
no declared network and no CLI network argument. -/
theorem claim_C2_witness :
    (∃ c ∈ flattenContracts cssC2, resolveNetwork envC2.cliNetwork c.network = none) ∧
    ((filterContracts envC2 (flattenContracts cssC2)).1 = none ∧
      verify envC2 svcVOk cssC2 =
        Except.ok ⟨[networkErrMsg, "Verification failed"], []⟩) :=
  ⟨by decide, claim_C2 envC2 cssC2 svcVOk (by decide)⟩

/-- Claim C5: the dependency resolver terminates on every graph (it is a
total function by construction, well-founded on the unvisited graph
paths) and records each source file's raw content at most once: the list
of paths whose content a run records has no duplicates and avoids every
path already in the visited-set. -/
theorem claim_C5 (g : SourceGraph) (todo : List String) (md : Metadata)
    (vis : List String) :
    (resolveDeps g todo md vis).trace.Nodup ∧
      ∀ q ∈ (resolveDeps g todo md vis).trace, q ∉ vis :=
  ⟨(resolveDeps_trace_spec g todo md vis).1, (resolveDeps_trace_spec g todo md vis).2.1⟩

/-- Witness for claim C5 at a concrete input: resolving `Token.sol` in a
graph with a shared library, against a non-empty visited-set. -/
theorem claim_C5_witness :
    (resolveDeps envC9.graph ["contracts/Token.sol"] ⟨"0.8.0", []⟩ ["seen.sol"]).trace.Nodup ∧
    ∀ q ∈ (resolveDeps envC9.graph ["contracts/Token.sol"] ⟨"0.8.0", []⟩ ["seen.sol"]).trace,
      q ∉ ["seen.sol"] :=
  claim_C5 envC9.graph ["contracts/Token.sol"] ⟨"0.8.0", []⟩ ["seen.sol"]

/-- Claim C8: invoking the request assembler twice with the identical
contract list and the instance state left by the first call yields
structurally identical results; the instance state (the Hardhat
environment) is never modified. -/
theorem claim_C8 (s : Env) (flat : List ContractByName) :
    (filterContractsS s flat).1 = (filterContractsS (filterContractsS s flat).2 flat).1 ∧
    getContractData (filterContractsS s flat).2 flat = getContractData s flat ∧
    (filterContractsS s flat).2 = s :=
  ⟨rfl, rfl, rfl⟩

theorem verify_none (env : Env) (svc : TenderlyContractUploadRequest → Except String Unit)
    (css : List (List ContractByName)) (logs : List String)
    (hf : filterContracts env (flattenContracts css) = (none, logs)) :
    verify env svc css = Except.ok ⟨logs ++ ["Verification failed"], []⟩ := by
  simp only [verify]
  rw [hf]

theorem verify_some (env : Env) (svc : TenderlyContractUploadRequest → Except String Unit)
    (css : List (List ContractByName)) (req : TenderlyContractUploadRequest)
    (logs : List String)
    (hf : filterContracts env (flattenContracts css) = (some req, logs)) :
    verify env svc css =
      match svc req with
      | Except.ok _ => Except.ok ⟨logs, [req]⟩
      | Except.error e => Except.ok ⟨logs ++ [e], [req]⟩ := by
  simp only [verify]
  rw [hf]

theorem push_noProject (env : Env)
    (svc : TenderlyContractUploadRequest → String → String → Except String Unit)
    (css : List (List ContractByName)) (rd : Option TenderlyContractUploadRequest)
    (logs : List String)
    (hf : filterContracts env (flattenContracts css) = (rd, logs))
    (hp : env.tenderlyProject = none) :
    push env svc css = Except.ok ⟨logs ++ [projectErrMsg], []⟩ := by
  have h2 : (filterContracts env (flattenContracts css)).2 = logs := by rw [hf]
  simp only [push, hp, h2]

theorem push_noUsername (env : Env)
    (svc : TenderlyContractUploadRequest → String → String → Except String Unit)
    (css : List (List ContractByName)) (rd : Option TenderlyContractUploadRequest)
    (logs : List String) (proj : String)
    (hf : filterContracts env (flattenContracts css) = (rd, logs))
    (hp : env.tenderlyProject = some proj) (hu : env.tenderlyUsername = none) :
    push env svc css = Except.ok ⟨logs ++ [usernameErrMsg], []⟩ := by
  have h2 : (filterContracts env (flattenContracts css)).2 = logs := by rw [hf]
  simp only [push, hp, hu, h2]

theorem push_noRequest (env : Env)
    (svc : TenderlyContractUploadRequest → String → String → Except String Unit)
    (css : List (List ContractByName)) (logs : List String) (proj user : String)
    (hf : filterContracts env (flattenContracts css) = (none, logs))
    (hp : env.tenderlyProject = some proj) (hu : env.tenderlyUsername = some user) :
    push env svc css = Except.ok ⟨logs ++ ["Push failed"], []⟩ := by
  have h1 : (filterContracts env (flattenContracts css)).1 = none := by rw [hf]
  have h2 : (filterContracts env (flattenContracts css)).2 = logs := by rw [hf]
  simp only [push, hp, hu, h1, h2]

theorem push_service (env : Env)
    (svc : TenderlyContractUploadRequest → String → String → Except String Unit)
    (css : List (List ContractByName)) (req : TenderlyContractUploadRequest)
    (logs : List String) (proj user : String)
    (hf : filterContracts env (flattenContracts css) = (some req, logs))
    (hp : env.tenderlyProject = some proj) (hu : env.tenderlyUsername = some user) :
    push env svc css =
      match svc req proj user with
      | Except.ok _ => Except.ok ⟨logs, [(req, proj, user)]⟩
      | Except.error e => Except.ok ⟨logs ++ [e], [(req, proj, user)]⟩ := by
  have h1 : (filterContracts env (flattenContracts css)).1 = some req := by rw [hf]
  have h2 : (filterContracts env (flattenContracts css)).2 = logs := by rw [hf]
  simp only [push, hp, hu, h1, h2]

theorem verify_isOk (env : Env) (svc : TenderlyContractUploadRequest → Except String Unit)
    (css : List (List ContractByName)) :
    ∃ out, verify env svc css = Except.ok out := by
  rcases hf : filterContracts env (flattenContracts css) with ⟨rd, logs⟩
  rcases rd with _ | req
  · exact ⟨_, verify_none env svc css logs hf⟩
  · rw [verify_some env svc css req logs hf]
    rcases hs : svc req with e | u
    · exact ⟨_, rfl⟩
    · exact ⟨_, rfl⟩

theorem push_isOk (env : Env)
    (svc : TenderlyContractUploadRequest → String → String → Except String Unit)
    (css : List (List ContractByName)) :
    ∃ out, push env svc css = Except.ok out := by
  rcases hf : filterContracts env (flattenContracts css) with ⟨rd, logs⟩
  rcases hp : env.tenderlyProject with _ | proj
  · exact ⟨_, push_noProject env svc css rd logs hf hp⟩
  · rcases hu : env.tenderlyUsername with _ | user
    · exact ⟨_, push_noUsername env svc css rd logs proj hf hp hu⟩
    · rcases rd with _ | req
      · exact ⟨_, push_noRequest env svc css logs proj user hf hp hu⟩
      · rw [push_service env svc css req logs proj user hf hp hu]
        rcases hs : svc req proj user with e | u
        · exact ⟨_, rfl⟩
        · exact ⟨_, rfl⟩

/-- Claim C6: `verify` and `push` never propagate an exception from the
service call: both always return `Except.ok`, and when the underlying
service call throws, the thrown message is appended to the log and the
operation still returns normally. -/
theorem claim_C6 (env : Env) (css : List (List ContractByName))
    (svcV : TenderlyContractUploadRequest → Except String Unit)
    (svcP : TenderlyContractUploadRequest → String → String → Except String Unit) :
    (∃ out, verify env svcV css = Except.ok out) ∧
    (∃ out, push env svcP css = Except.ok out) ∧
    (∀ req logs e, filterContracts env (flattenContracts css) = (some req, logs) →
      svcV req = Except.error e →
      verify env svcV css = Except.ok ⟨logs ++ [e], [req]⟩) ∧
    (∀ req logs e proj user,
      filterContracts env (flattenContracts css) = (some req, logs) →
      env.tenderlyProject = some proj → env.tenderlyUsername = some user →
      svcP req proj user = Except.error e →
      push env svcP css = Except.ok ⟨logs ++ [e], [(req, proj, user)]⟩) := by
  refine ⟨verify_isOk env svcV css, push_isOk env svcP css, ?_, ?_⟩
  · intro req logs e hf hs
    rw [verify_some env svcV css req logs hf, hs]
  · intro req logs e proj user hf hp hu hs
    rw [push_service env svcP css req logs proj user hf hp hu, hs]

/-- Witness for claim C6 at a concrete input where both service calls
throw: the thrown messages are logged and both operations return `ok`. -/
theorem claim_C6_witness :
    verify envC6 svcVErr cssC6 = Except.ok ⟨["service down"], [reqC6]⟩ ∧
    push envC6 svcPErr cssC6 = Except.ok ⟨["push down"], [(reqC6, "proj", "user")]⟩ := by
  have hf : filterContracts envC6 (flattenContracts cssC6) = (some reqC6, []) := by
    simp [filterContracts, getContractData, getContracts, buildMetadata, metadataStep,
      recordAndResolve, envC6, cssC6, flattenContracts, shortName, splitChar, resolveDeps,
      findFileMem, assocSet, newCompilerConfig, filterContractsLoop, resolveNetwork, jsOr,
      networkKey, NetworkMap, lowerString, setNetworksAtFirst, reqC6]
  have h := claim_C6 envC6 cssC6 svcVErr svcPErr
  exact ⟨h.2.2.1 reqC6 [] "service down" hf rfl,
    h.2.2.2 reqC6 [] "push down" "proj" "user" hf rfl rfl rfl⟩

/-- Counterexample to claim C7 as stated: with the project field undefined
and a contract whose network is unresolvable, `push` emits two log lines
(the assembly's network error, then the missing-project message), not a
single one; no network call is made. -/
theorem claim_C7_counterexample :
    push envC7 svcPOk cssC7 = Except.ok ⟨[networkErrMsg, projectErrMsg], []⟩ ∧
    [networkErrMsg, projectErrMsg].length = 2 := by
  constructor
  · have hf : filterContracts envC7 (flattenContracts cssC7) = (none, [networkErrMsg]) :=
      filterContracts_none envC7 _ (by decide)
    rw [push_noProject envC7 svcPOk cssC7 none [networkErrMsg] hf rfl]
    rfl
  · rfl

/-- Claim C7 (amended): for every contract list, if the host
configuration's project identifier or username is undefined, `push`
returns without invoking `TenderlyService.pushContracts` and emits one
descriptive log line for the first missing field, preceded by whatever
single line (if any) the request assembly itself logged. -/
theorem claim_C7_amended (env : Env) (css : List (List ContractByName))
    (svc : TenderlyContractUploadRequest → String → String → Except String Unit)
    (h : env.tenderlyProject = none ∨ env.tenderlyUsername = none) :
    push env svc css =
      Except.ok ⟨(filterContracts env (flattenContracts css)).2 ++ [configMsg env], []⟩ ∧
    (filterContracts env (flattenContracts css)).2.length ≤ 1 := by
  constructor
  · rcases hf : filterContracts env (flattenContracts css) with ⟨rd, logs⟩
    rcases hp : env.tenderlyProject with _ | proj
    · rw [push_noProject env svc css rd logs hf hp]
      simp only [configMsg, hp, hf]
    · rcases h with h1 | h1
      · rw [hp] at h1
        exact absurd h1 (by simp)
      · rw [push_noUsername env svc css rd logs proj hf hp h1]
        simp only [configMsg, hp, h1, hf]
  · rcases filterContracts_logs env (flattenContracts css) with h2 | h2 <;> rw [h2] <;> simp

/-- Witness for the amended claim C7 at a concrete input with the project
field undefined. -/
theorem claim_C7_witness :
    (envC7.tenderlyProject = none ∨ envC7.tenderlyUsername = none) ∧
    (push envC7 svcPOk cssC7 =
        Except.ok ⟨(filterContracts envC7 (flattenContracts cssC7)).2 ++ [configMsg envC7], []⟩ ∧
      (filterContracts envC7 (flattenContracts cssC7)).2.length ≤ 1) :=
  ⟨Or.inl rfl, claim_C7_amended envC7 cssC7 svcPOk (Or.inl rfl)⟩

/-- Claim C3 (evaluation of the code at the failing input): "bogusnet" is
absent from `NetworkMap`, yet `filterContracts` assembles and returns an
upload request whose networks key for `Token` is the string "undefined"
(the JS coercion of an undefined computed property name) — the unmapped
name is not treated as a configuration error. -/
theorem claim_C3_code_bug :
    NetworkMap (lowerString "bogusnet") = none ∧
    filterContracts envC3 flatC3 = (some reqC3, []) ∧
    findByName reqC3.contracts "Token" =
      some ⟨"Token", "tokensrc", "contracts/Token.sol", [("undefined", "0xabc")],
        ⟨"solc", "0.8.0"⟩⟩ := by
  refine ⟨by decide, ?_, by decide⟩
  simp [filterContracts, getContractData, getContracts, buildMetadata, metadataStep,
    recordAndResolve, envC3, flatC3, shortName, splitChar, resolveDeps, findFileMem,
    assocSet, newCompilerConfig, filterContractsLoop, resolveNetwork, jsOr, networkKey,
    NetworkMap, lowerString, setNetworksAtFirst, reqC3]

/-- Counterexample to claim C4 as stated: requesting only `Token`, whose
source imports `Lib.sol`, produces a request with an entry named `Lib` —
an entry for a name that matches no requested contract. -/
theorem claim_C4_counterexample :
    (getContracts envC4 flatC4).map (fun e => e.contractName) = ["Token", "Lib"] ∧
    flatC4.map (fun c => c.name) = ["Token"] := by
  constructor
  · simp [getContracts, buildMetadata, metadataStep, recordAndResolve, envC4, flatC4,
      shortName, splitChar, resolveDeps, findFileMem, assocSet]
  · rfl

/-- Claim C4 (amended): when every requested contract's name matches some
resolved source file, the assembled request contains exactly one
`TenderlyContract` entry per source path recorded in the assembled
metadata — the matched contracts' files together with their
transitive imports — with no two entries sharing a source path, and every matched
contract name appears as some entry's name. -/
theorem claim_C4_amended (env : Env) (flat : List ContractByName)
    (h : ∀ c ∈ flat, ∃ rf ∈ env.graph.resolvedFiles, c.name = shortName rf.sourceName) :
    ((getContracts env flat).map (fun e => e.sourcePath)).Nodup ∧
    ((getContracts env flat).map (fun e => e.sourcePath) =
      (buildMetadata env flat).sources.map Prod.fst) ∧
    (∀ c ∈ flat, ∃ e ∈ getContracts env flat, e.contractName = c.name) := by
  refine ⟨?_, getContracts_paths env flat, ?_⟩
  · rw [getContracts_paths]
    exact buildMetadata_keys_nodup env flat
  · intro c hc
    rcases h c hc with ⟨rf, hrf, hn⟩
    have hmem := buildMetadata_matched_mem env flat rf c hrf hc hn
    rcases getContracts_entry_of_key env flat rf.sourceName hmem with ⟨e, he, _, hname⟩
    refine ⟨e, he, ?_⟩
    rw [hname, ← hn]

/-- Witness for the amended claim C4 at a concrete input: `Token` matches
`contracts/Token.sol`, which imports `contracts/Lib.sol`. -/
theorem claim_C4_witness :
    (∀ c ∈ flatC4, ∃ rf ∈ envC4.graph.resolvedFiles, c.name = shortName rf.sourceName) ∧
    (((getContracts envC4 flatC4).map (fun e => e.sourcePath)).Nodup ∧
      ((getContracts envC4 flatC4).map (fun e => e.sourcePath) =
        (buildMetadata envC4 flatC4).sources.map Prod.fst) ∧
      (∀ c ∈ flatC4, ∃ e ∈ getContracts envC4 flatC4, e.contractName = c.name)) :=
  ⟨by decide, claim_C4_amended envC4 flatC4 (by decide)⟩

theorem countP_keys (m : List (String × String)) (L : String) :
    m.countP (fun kv => kv.1 == L) = (m.map Prod.fst).count L := by
  induction m with
  | nil => simp
  | cons kv rest ih => simp [List.countP_cons, List.count_cons, ih]

/-- Claim C9: when two requested contracts' source files both import the
same library file, the assembled metadata's sources mapping contains the
library file's content under its path exactly once. -/
theorem claim_C9 (env : Env) (flat : List ContractByName) (c1 c2 : ContractByName)
    (rf1 rf2 : ResolvedFile) (L : String) (fl : ResolvedFile)
    (hnodup : (env.graph.resolvedFiles.map (fun f => f.sourceName)).Nodup)
    (hc1 : c1 ∈ flat) (hc2 : c2 ∈ flat)
    (hrf1 : rf1 ∈ env.graph.resolvedFiles) (hrf2 : rf2 ∈ env.graph.resolvedFiles)
    (hm1 : c1.name = shortName rf1.sourceName) (hm2 : c2.name = shortName rf2.sourceName)
    (hL1 : L ∈ rf1.imports) (hL2 : L ∈ rf2.imports)
    (hfl : findFile env.graph L = some fl) :
    lookupKey (buildMetadata env flat).sources L = some fl.rawContent ∧
    (buildMetadata env flat).sources.countP (fun kv => kv.1 == L) = 1 := by
  have hfLmem : ∃ x, findFileMem env.graph.resolvedFiles L = some x := by
    rcases hm : findFileMem env.graph.resolvedFiles L with _ | x
    · exfalso
      unfold findFile at hfl
      rw [hm] at hfl
      simp at hfl
    · exact ⟨x, rfl⟩
  have hmem := buildMetadata_import_mem env flat rf1 c1 L hnodup hrf1 hc1 hm1 hL1 hfLmem
  have hgc := buildMetadata_gConsistent env flat hnodup
  rcases (mem_keys_iff_lookupKey _ L).mp hmem with ⟨v, hv⟩
  rcases hgc L v hv with ⟨f, hfind, hraw⟩
  have hffl : f = fl := by
    rw [hfind] at hfl
    exact (Option.some.injEq _ _).mp hfl
  constructor
  · rw [hv, ← hraw, hffl]
  · rw [countP_keys]
    exact List.count_eq_one_of_mem (buildMetadata_keys_nodup env flat) hmem

/-- Witness for claim C9 at a concrete input: `Token.sol` and `Coin.sol`
both import `Lib.sol`; the metadata holds `Lib.sol`'s content exactly
once. -/
theorem claim_C9_witness :
    lookupKey (buildMetadata envC9 flatC9).sources "contracts/Lib.sol" = some "libsrc" ∧
    (buildMetadata envC9 flatC9).sources.countP
      (fun kv => kv.1 == "contracts/Lib.sol") = 1 :=
  claim_C9 envC9 flatC9 ⟨"Token", "0x1", none⟩ ⟨"Coin", "0x2", none⟩
    ⟨"contracts/Token.sol", "tokensrc", ["contracts/Lib.sol"]⟩
    ⟨"contracts/Coin.sol", "coinsrc", ["contracts/Lib.sol"]⟩
    "contracts/Lib.sol" ⟨"contracts/Lib.sol", "libsrc", []⟩
    (by decide) (by decide) (by decide) (by decide) (by decide) (by decide) (by decide)
    (by decide) (by decide) (by decide)

/-- Claim C10: after `filterContracts` succeeds, every request entry's
networks object holds at most one network/address pair, and when a
contract name is requested repeatedly, the first matching entry ends up
holding exactly the pair of the last requested contract with that name
(each assignment replaces the whole networks object). -/
theorem claim_C10 (env : Env) (flat : List ContractByName)
    (req : TenderlyContractUploadRequest) (logs : List String)
    (h : filterContracts env flat = (some req, logs)) :
    (∀ e ∈ req.contracts, e.networks = [] ∨ ∃ kv, e.networks = [kv]) ∧
    (∀ n c, lastWithName n flat = some c →
      ∀ e0, findByName (getContractData env flat).contracts n = some e0 →
        ∃ net, resolveNetwork env.cliNetwork c.network = some net ∧
          findByName req.contracts n =
            some { e0 with networks := [(networkKey net, c.address)] }) := by
  have hl : ∃ cs, filterContractsLoop env.cliNetwork flat
      (getContractData env flat).contracts = some cs ∧
      req = { getContractData env flat with contracts := cs } := by
    revert h
    simp only [filterContracts]
    rcases hL : filterContractsLoop env.cliNetwork flat
        (getContractData env flat).contracts with _ | cs
    · intro h
      exact absurd h (by simp)
    · intro h
      refine ⟨cs, rfl, ?_⟩
      rcases (Prod.mk.injEq _ _ _ _).mp h with ⟨h1, _⟩
      exact ((Option.some.injEq _ _).mp h1).symm
  rcases hl with ⟨cs, hcs, hreq⟩
  have hcontr : req.contracts = cs := by rw [hreq]
  constructor
  · intro e he
    rw [hcontr] at he
    exact filterContractsLoop_networks env.cliNetwork flat _ cs hcs
      (fun e he => Or.inl (getContracts_networks env flat e he)) e he
  · intro n c hlast e0 hfind0
    rcases (filterContractsLoop_find env.cliNetwork flat _ cs hcs n).2 c hlast with
        ⟨net, hnet, hfb⟩
    refine ⟨net, hnet, ?_⟩
    rw [hcontr, hfb, hfind0]
    rfl

/-- Witness for claim C10 at a concrete input: `Token` is requested twice
(addresses 0x1/0x2, networks mainnet/ropsten); the single `Token` entry
carries exactly the last pair. -/
theorem claim_C10_witness :
    filterContracts envC10 flatC10 = (some reqC10, []) ∧
    (∀ e ∈ reqC10.contracts, e.networks = [] ∨ ∃ kv, e.networks = [kv]) ∧
    (∃ net, resolveNetwork envC10.cliNetwork cC10.network = some net ∧
      findByName reqC10.contracts "Token" =
        some { e0C10 with networks := [(networkKey net, cC10.address)] }) := by
  have hf : filterContracts envC10 flatC10 = (some reqC10, []) := by
    simp [filterContracts, getContractData, getContracts, buildMetadata, metadataStep,
      recordAndResolve, envC10, flatC10, shortName, splitChar, resolveDeps, findFileMem,
      assocSet, newCompilerConfig, filterContractsLoop, resolveNetwork, jsOr, networkKey,
      NetworkMap, lowerString, setNetworksAtFirst, reqC10]
  have h := claim_C10 envC10 flatC10 reqC10 [] hf
  have hlast : lastWithName "Token" flatC10 = some cC10 := by decide
  have hfind0 : findByName (getContractData envC10 flatC10).contracts "Token" = some e0C10 := by
    simp [getContractData, getContracts, buildMetadata, metadataStep, recordAndResolve,
      envC10, flatC10, shortName, splitChar, resolveDeps, findFileMem, assocSet,
      newCompilerConfig, findByName, e0C10]
  exact ⟨hf, h.1, h.2 "Token" cC10 hlast e0C10 hfind0⟩

end HardhatTenderly
